import Mathlib

/-!
Verification of the kaorou-checker core: the time-based subtitle aligner
(`align_subtitles` in `lqa_tool.py`) and the batched review worker
(`LQAWorker.run` in `lqa_tool.py`), shallowly embedded in Lean.

Times are milliseconds, modelled as `Int`.  The Python float division in the
matching rule (`overlap_duration / t_duration > 0.5`) is read exactly: the
divisor is always positive after its floor at 1, so the test is equivalent to
an integer comparison, and the equivalence with the rational reading is
proved (`isValidMatch_iff_ratio`).
-/

namespace Kaorou

/-- A parsed subtitle line, the dict with keys start, end, text (ms, ms, str)
produced by `parse_subtitle_file`.  `end` is a Lean keyword, hence the field
`end_`. -/
structure Segment where
  start : Int
  end_ : Int
  text : String
  deriving DecidableEq, Repr

/-- The constant `MIN_OVERLAP_MS = 200` from `align_subtitles`. -/
def MIN_OVERLAP_MS : Int := 200

/-- The quantity `overlap_duration = min(s_end, t_end) - max(s_start, t_start)`
from the source (note: the source does not clamp this at 0; it may be
negative). -/
def overlapDuration (s t : Segment) : Int :=
  min s.end_ t.end_ - max s.start t.start

/-- The divisor `t_duration = t_end - t_start; if t_duration <= 0:
t_duration = 1` from the source. -/
def tDurationFloor (t : Segment) : Int :=
  if t.end_ - t.start ≤ 0 then 1 else t.end_ - t.start

/-- The test `is_valid_match = (overlap_duration >= MIN_OVERLAP_MS) or
(overlap_duration / t_duration > 0.5)` from the source.  The divisor
`t_duration` is always positive after the floor, so the exact reading of the
division test `overlap_duration / t_duration > 1/2` is equivalent to
`t_duration < 2 * overlap_duration`; the latter integer form is used here so
that the function evaluates by kernel reduction, and the equivalence with the
rational form is proved in `isValidMatch_iff_ratio` below. -/
def isValidMatch (s t : Segment) : Bool :=
  decide (MIN_OVERLAP_MS ≤ overlapDuration s t) ||
    decide (tDurationFloor t < 2 * overlapDuration s t)

/-- The inner `for t_idx, t in enumerate(target_data)` loop of
`align_subtitles`: collect the pairs of index and text for every pool segment whose
index is not yet used and which satisfies `is_valid_match`.  `k` is the index
of the first element of `pool` (the Python loop starts at `k = 0`). -/
def findCandidates (s : Segment) : List Segment → Nat → List Nat → List (Nat × String)
  | [], _, _ => []
  | t :: rest, k, used =>
    if k ∈ used then findCandidates s rest (k + 1) used
    else if isValidMatch s t then
      (k, t.text) :: findCandidates s rest (k + 1) used
    else findCandidates s rest (k + 1) used

/-- Insertion step of a stable sort on the candidate index (first component);
models `candidates.sort(key=lambda x: x[0])`. -/
def insertByIdx (x : Nat × String) : List (Nat × String) → List (Nat × String)
  | [] => [x]
  | y :: ys => if x.1 ≤ y.1 then x :: y :: ys else y :: insertByIdx x ys

/-- Stable insertion sort by candidate index; models
`candidates.sort(key=lambda x: x[0])`. -/
def sortByIdx : List (Nat × String) → List (Nat × String)
  | [] => []
  | x :: xs => insertByIdx x (sortByIdx xs)

/-- One output row of the aligner, enriched (for verification) with the list
of pool indices whose texts were joined into `matchedText`.  The source keeps
exactly this information in `candidates` / `used_target_indices`; the tuple it
appends to `aligned` is the projection `(masterText, matchedText)`. -/
structure AlignedRow where
  masterText : String
  matchedText : String
  matchedIdx : List Nat
  deriving DecidableEq, Repr

/-- The main `for s in source_data` loop of `align_subtitles`, with the pool
(`target_data`) fixed and the `used_target_indices` set threaded through.
When candidates exist they are sorted by index, their texts joined with a
newline, and their indices added to the used set; otherwise the row gets
`matched_text = ""`. -/
def alignFull (pool : List Segment) : List Segment → List Nat → List AlignedRow
  | [], _ => []
  | s :: rest, used =>
    let cand := findCandidates s pool 0 used
    if cand.isEmpty then
      { masterText := s.text, matchedText := "", matchedIdx := [] }
        :: alignFull pool rest used
    else
      let sorted := sortByIdx cand
      { masterText := s.text,
        matchedText := String.intercalate "\n" (sorted.map Prod.snd),
        matchedIdx := sorted.map Prod.fst }
        :: alignFull pool rest (used ++ sorted.map Prod.fst)

/-- The function `align_subtitles(source_data, target_data)`: returns the list of
pairs of master text and combined matched text, one per master
(first-argument) segment. -/
def align_subtitles (source_data target_data : List Segment) :
    List (String × String) :=
  (alignFull target_data source_data []).map fun r => (r.masterText, r.matchedText)

/-- Spec-side overlap, for comparison with the source:
`overlap(a, b) = max(0, min(a.end, b.end) - max(a.start, b.start))`. -/
def specOverlap (a b : Segment) : Int :=
  max 0 (min a.end_ b.end_ - max a.start b.start)

/-- Spec-side duration, for comparison with the source:
`duration(p) = max(1, p.end - p.start)`. -/
def specDuration (p : Segment) : Int :=
  max 1 (p.end_ - p.start)

/-- One raw result record of the JSON reply of the review service, with the fields
demanded by `LQA_PROMPT` (`id`, `score`, `issues`, `comment`, `suggestion`).
`id` is `Option Int` because the service may return a different value than the
row index, or omit the key entirely; `LQAWorker.run` overwrites it. -/
structure RawItem where
  id : Option Int
  score : Int
  issues : List String
  comment : String
  suggestion : String
  deriving DecidableEq, Repr

/-- The possible outcomes of one `review_fn` round trip in `LQAWorker.run`:
the `generate_content` call raises (`apiError`, the outer
`except Exception ... continue`), `json.loads` raises (`parseError`, the inner
`except json.JSONDecodeError`), the JSON is a list, the JSON is a dict with a
`"reviews"` key holding a list, or any other JSON shape (normalised to `[]`
by the `elif not isinstance(res_json, list)` branch). -/
inductive RawResponse where
  | apiError
  | parseError
  | jsonList (items : List RawItem)
  | jsonDictReviews (items : List RawItem)
  | jsonOther
  deriving DecidableEq, Repr

/-- The observable emissions of `LQAWorker.run`: the `progress_update`,
`batch_finished` signals, plus the invocations of the review service
(`client.models.generate_content` with the two batch slices). -/
inductive Event where
  | progress (done total : Nat) (message : String)
  | reviewCall (batch_s batch_t : List String)
  | batchResult (items : List RawItem)
  deriving DecidableEq, Repr

/-- The loop `for idx, item in enumerate(res_json)` assigning
`i + idx` to the id key of each item: overwrite the identifier of every item
with the absolute row index. -/
def reId (i : Nat) : List RawItem → List RawItem
  | [] => []
  | item :: rest => { item with id := some (i : Int) } :: reId (i + 1) rest

/-- The per-batch result handling of `LQAWorker.run`: nothing is emitted on a
service error or a JSON parse error (the batch is skipped); a list (possibly
unwrapped from a `"reviews"` dict, or `[]` for any other shape) is re-indexed
by `reId` and emitted via `batch_finished`. -/
def respEmissions (i : Nat) : RawResponse → List Event
  | RawResponse.apiError => []
  | RawResponse.parseError => []
  | RawResponse.jsonList items => [Event.batchResult (reId i items)]
  | RawResponse.jsonDictReviews items => [Event.batchResult (reId i items)]
  | RawResponse.jsonOther => [Event.batchResult (reId i [])]

/-- The lists emitted for one response, without the `Event` wrapper (used to
state lemmas about emissions). -/
def respLists (i : Nat) : RawResponse → List (List RawItem)
  | RawResponse.apiError => []
  | RawResponse.parseError => []
  | RawResponse.jsonList items => [reId i items]
  | RawResponse.jsonDictReviews items => [reId i items]
  | RawResponse.jsonOther => [reId i []]

/-- How many items a response carries into the emission (0 for errors). -/
def respItemCount : RawResponse → Nat
  | RawResponse.apiError => 0
  | RawResponse.parseError => 0
  | RawResponse.jsonList items => items.length
  | RawResponse.jsonDictReviews items => items.length
  | RawResponse.jsonOther => 0

/-- One iteration of the batch loop of `LQAWorker.run` for the batch starting
at row `i`: slice `source_lines[i : i + batch_size]` and
`target_lines[i : i + batch_size]`, emit `progress_update(i, total, ...)`,
invoke the review service on the slices, then handle the response.
`review i` is the outcome the external service produces for this batch. -/
def processBatch (source_lines target_lines : List String)
    (total batch_size : Nat) (review : Nat → RawResponse) (i : Nat) :
    List Event :=
  Event.progress i total
      ("Checking " ++ toString i ++ "/" ++ toString total ++ "...")
    :: Event.reviewCall ((source_lines.drop i).take batch_size)
        ((target_lines.drop i).take batch_size)
    :: respEmissions i (review i)

/-- The iteration space `range(0, total, batch_size)`: the ascending batch start indices
`0, bs, 2*bs, ...` strictly below `total` (`(total + bs - 1) / bs` of them,
the ceiling of `total / bs`). -/
def batchStarts (total batch_size : Nat) : List Nat :=
  (List.range ((total + batch_size - 1) / batch_size)).map (· * batch_size)

/-- The batch loop with the cooperative cancellation check
(`if self.isInterruptionRequested(): break`) at each batch boundary.
`cancel i` is the value of the interruption flag observed at the boundary
check before the batch starting at row `i`; when it is set the loop breaks
and nothing further is emitted. -/
def runLoop (cancel : Nat → Bool) (pb : Nat → List Event) :
    List Nat → List Event
  | [] => []
  | i :: rest => if cancel i then [] else pb i ++ runLoop cancel pb rest

/-- The assignment `self.batch_size = 10` from `LQAWorker.__init__`. -/
def LQAWorker.batch_size : Nat := 10

/-- The method `LQAWorker.run`, observably: `total = len(self.source_lines)`; iterate
`for i in range(0, total, self.batch_size)` with the interruption check at
each boundary; per batch emit progress, call the service on the two slices,
and handle the response.  Note there is no length comparison between
`source_lines` and `target_lines` anywhere: the target list is only ever
sliced, truncating silently if it is shorter.  The function always returns
(every service failure is caught inside the loop), which is what makes the
Qt `finished` signal — the `Completed()` notification — fire. -/
def LQAWorker.run (source_lines target_lines : List String)
    (batch_size : Nat) (review : Nat → RawResponse) (cancel : Nat → Bool) :
    List Event :=
  runLoop cancel
    (processBatch source_lines target_lines source_lines.length batch_size
      review)
    (batchStarts source_lines.length batch_size)

/-- The arguments of the review-service invocations in a trace, in order. -/
def reviewCallArgs : List Event → List (List String × List String)
  | [] => []
  | Event.reviewCall bs bt :: rest => (bs, bt) :: reviewCallArgs rest
  | Event.progress _ _ _ :: rest => reviewCallArgs rest
  | Event.batchResult _ :: rest => reviewCallArgs rest

/-- The `batch_finished` payloads in a trace, in order. -/
def emittedBatches : List Event → List (List RawItem)
  | [] => []
  | Event.batchResult items :: rest => items :: emittedBatches rest
  | Event.progress _ _ _ :: rest => emittedBatches rest
  | Event.reviewCall _ _ :: rest => emittedBatches rest

/-- All emitted result items of a trace, in emission order. -/
def emittedItems (tr : List Event) : List RawItem :=
  (emittedBatches tr).flatten

/-- All emitted row identifiers of a trace, in emission order. -/
def emittedIds (tr : List Event) : List (Option Int) :=
  (emittedItems tr).map RawItem.id

/-- A sample raw item carrying a service-supplied (wrong) identifier, used to
instantiate theorems on concrete inputs. -/
def sampleItem : RawItem :=
  { id := some 999, score := 7, issues := [], comment := "c", suggestion := "s" }

/-- The floored divisor of the ratio test is always positive. -/
theorem tDurationFloor_pos (t : Segment) : 0 < tDurationFloor t := by
  unfold tDurationFloor
  split <;> omega

/-- The Python floor `if t_duration <= 0: t_duration = 1` computes exactly the
`duration(p) = max(1, p.end - p.start)` of the spec. -/
theorem tDurationFloor_eq_specDuration (t : Segment) :
    tDurationFloor t = specDuration t := by
  unfold tDurationFloor specDuration
  rw [Int.max_def]
  split <;> split <;> omega

theorem specOverlap_eq_clamp (a b : Segment) :
    specOverlap a b = max 0 (overlapDuration a b) := rfl

/-- The integer ratio test in `isValidMatch` is the exact reading of the
division test `overlap_duration / t_duration > 0.5` of the source, read over
the rationals. -/
theorem isValidMatch_iff_ratio (s t : Segment) :
    isValidMatch s t = true ↔
      MIN_OVERLAP_MS ≤ overlapDuration s t ∨
        (1 : ℚ) / 2 < (overlapDuration s t : ℚ) / (tDurationFloor t : ℚ) := by
  have hd : (0 : ℚ) < (tDurationFloor t : ℚ) := by
    exact_mod_cast tDurationFloor_pos t
  have h2 : (0 : ℚ) < 2 := by norm_num
  have hiff : (1 : ℚ) / 2 < (overlapDuration s t : ℚ) / (tDurationFloor t : ℚ) ↔
      tDurationFloor t < 2 * overlapDuration s t := by
    rw [div_lt_div_iff₀ h2 hd]
    constructor
    · intro h
      have hq : (tDurationFloor t : ℚ) < 2 * (overlapDuration s t : ℚ) := by linarith
      exact_mod_cast hq
    · intro h
      have hq : (tDurationFloor t : ℚ) < 2 * (overlapDuration s t : ℚ) := by
        exact_mod_cast h
      linarith
  rw [isValidMatch, Bool.or_eq_true, decide_eq_true_eq, decide_eq_true_eq, hiff]

/-- The test `isValidMatch` agrees with the candidate rule of the spec, stated with the
clamped overlap `max(0, ...)` and `duration(p) = max(1, ...)`: the source
omits the clamp, but a negative raw overlap fails both disjuncts on either
side. -/
theorem isValidMatch_iff_specRule (s p : Segment) :
    isValidMatch s p = true ↔
      MIN_OVERLAP_MS ≤ specOverlap s p ∨
        (1 : ℚ) / 2 < (specOverlap s p : ℚ) / (specDuration p : ℚ) := by
  have hdur : specDuration p = tDurationFloor p :=
    (tDurationFloor_eq_specDuration p).symm
  rcases le_or_lt 0 (overlapDuration s p) with hpos | hneg
  · have hov : specOverlap s p = overlapDuration s p := by
      rw [specOverlap_eq_clamp]
      exact max_eq_right hpos
    rw [isValidMatch_iff_ratio, hov, hdur]
  · have hov : specOverlap s p = 0 := by
      rw [specOverlap_eq_clamp]
      exact max_eq_left hneg.le
    have hd : (0 : ℚ) < (tDurationFloor p : ℚ) := by
      exact_mod_cast tDurationFloor_pos p
    rw [isValidMatch_iff_ratio, hov, hdur]
    have hA : ¬ MIN_OVERLAP_MS ≤ overlapDuration s p := by
      unfold MIN_OVERLAP_MS
      omega
    have hB : ¬ (1 : ℚ) / 2 < (overlapDuration s p : ℚ) / (tDurationFloor p : ℚ) := by
      have hnum : (overlapDuration s p : ℚ) ≤ 0 := by exact_mod_cast hneg.le
      have hle : (overlapDuration s p : ℚ) / (tDurationFloor p : ℚ) ≤ 0 :=
        div_nonpos_of_nonpos_of_nonneg hnum hd.le
      intro h
      linarith
    have hA0 : ¬ MIN_OVERLAP_MS ≤ (0 : Int) := by unfold MIN_OVERLAP_MS; omega
    have hB0 : ¬ (1 : ℚ) / 2 < ((0 : Int) : ℚ) / (tDurationFloor p : ℚ) := by
      norm_num
    constructor
    · intro h
      rcases h with h | h
      · exact absurd h hA
      · exact absurd h hB
    · intro h
      rcases h with h | h
      · exact absurd h hA0
      · exact absurd h hB0

theorem mem_insertByIdx (x c : Nat × String) (l : List (Nat × String)) :
    c ∈ insertByIdx x l ↔ c = x ∨ c ∈ l := by
  induction l with
  | nil => simp [insertByIdx]
  | cons y ys ih =>
    unfold insertByIdx
    split
    · simp
    · simp only [List.mem_cons, ih]
      tauto

theorem mem_sortByIdx (c : Nat × String) (l : List (Nat × String)) :
    c ∈ sortByIdx l ↔ c ∈ l := by
  induction l with
  | nil => simp [sortByIdx]
  | cons y ys ih =>
    unfold sortByIdx
    rw [mem_insertByIdx]
    simp [ih]

/-- Characterisation of the candidate scan: `(i, txt)` is collected exactly
when `i` points (relative to the running index `k`) at a pool segment whose
text is `txt`, whose index is unused, and which passes `is_valid_match`. -/
theorem mem_findCandidates (s : Segment) (pool : List Segment) (k : Nat)
    (used : List Nat) (c : Nat × String) :
    c ∈ findCandidates s pool k used ↔
      ∃ j seg, c.1 = k + j ∧ pool.get? j = some seg ∧ c.2 = seg.text ∧
        c.1 ∉ used ∧ isValidMatch s seg = true := by
  induction pool generalizing k with
  | nil => simp [findCandidates]
  | cons t rest ih =>
    unfold findCandidates
    by_cases hk : k ∈ used
    · rw [if_pos hk, ih (k + 1)]
      constructor
      · rintro ⟨j, seg, hc1, hget, hc2, hcu, hv⟩
        refine ⟨j + 1, seg, by omega, by simpa using hget, hc2, hcu, hv⟩
      · rintro ⟨j, seg, hc1, hget, hc2, hcu, hv⟩
        cases j with
        | zero =>
          exact absurd (by simpa [Nat.add_zero] using hc1 ▸ hk : c.1 ∈ used) hcu
        | succ j =>
          exact ⟨j, seg, by omega, by simpa using hget, hc2, hcu, hv⟩
    · rw [if_neg hk]
      by_cases hv : isValidMatch s t = true
      · rw [if_pos hv, List.mem_cons, ih (k + 1)]
        constructor
        · rintro (hc | ⟨j, seg, hc1, hget, hc2, hcu, hvv⟩)
          · subst hc
            exact ⟨0, t, by omega, rfl, rfl, hk, hv⟩
          · exact ⟨j + 1, seg, by omega, by simpa using hget, hc2, hcu, hvv⟩
        · rintro ⟨j, seg, hc1, hget, hc2, hcu, hvv⟩
          cases j with
          | zero =>
            left
            obtain rfl : t = seg := by simpa using hget
            obtain ⟨c1, c2⟩ := c
            simp only at hc1 hc2
            simp [hc1, hc2]
          | succ j =>
            right
            exact ⟨j, seg, by omega, by simpa using hget, hc2, hcu, hvv⟩
      · rw [if_neg hv, ih (k + 1)]
        constructor
        · rintro ⟨j, seg, hc1, hget, hc2, hcu, hvv⟩
          exact ⟨j + 1, seg, by omega, by simpa using hget, hc2, hcu, hvv⟩
        · rintro ⟨j, seg, hc1, hget, hc2, hcu, hvv⟩
          cases j with
          | zero =>
            obtain rfl : t = seg := by simpa using hget
            exact absurd hvv hv
          | succ j =>
            exact ⟨j, seg, by omega, by simpa using hget, hc2, hcu, hvv⟩

/-- Every matched index of every output row avoids the initial used set. -/
theorem alignFull_idx_not_used (pool : List Segment) :
    ∀ (master : List Segment) (used : List Nat),
      ∀ r ∈ alignFull pool master used, ∀ i ∈ r.matchedIdx, i ∉ used := by
  intro master
  induction master with
  | nil => intro used r hr; simp [alignFull] at hr
  | cons s rest ih =>
    intro used r hr i hi
    rw [alignFull] at hr
    by_cases hc : (findCandidates s pool 0 used).isEmpty
    · rw [if_pos hc] at hr
      rcases List.mem_cons.mp hr with hr | hr
      · subst hr; simp at hi
      · exact ih used r hr i hi
    · rw [if_neg hc] at hr
      rcases List.mem_cons.mp hr with hr | hr
      · subst hr
        simp only [List.mem_map] at hi
        obtain ⟨c, hc1, hc2⟩ := hi
        rw [mem_sortByIdx, mem_findCandidates] at hc1
        obtain ⟨j, seg, _, _, _, hcu, _⟩ := hc1
        exact hc2 ▸ hcu
      · intro hiu
        exact ih _ r hr i hi (List.mem_append_left _ hiu)

/-- Every matched index of every output row points at a pool segment that
passed `is_valid_match` against some master segment. -/
theorem alignFull_idx_valid (pool : List Segment) :
    ∀ (master : List Segment) (used : List Nat),
      ∀ r ∈ alignFull pool master used, ∀ i ∈ r.matchedIdx,
        ∃ s ∈ master, ∃ seg, pool.get? i = some seg ∧
          isValidMatch s seg = true := by
  intro master
  induction master with
  | nil => intro used r hr; simp [alignFull] at hr
  | cons s rest ih =>
    intro used r hr i hi
    rw [alignFull] at hr
    by_cases hc : (findCandidates s pool 0 used).isEmpty
    · rw [if_pos hc] at hr
      rcases List.mem_cons.mp hr with hr | hr
      · subst hr; simp at hi
      · obtain ⟨s2, hs2, htl⟩ := ih used r hr i hi
        exact ⟨s2, List.mem_cons_of_mem _ hs2, htl⟩
    · rw [if_neg hc] at hr
      rcases List.mem_cons.mp hr with hr | hr
      · subst hr
        simp only [List.mem_map] at hi
        obtain ⟨c, hc1, hc2⟩ := hi
        rw [mem_sortByIdx, mem_findCandidates] at hc1
        obtain ⟨j, seg, hj, hget, _, _, hv⟩ := hc1
        refine ⟨s, List.mem_cons_self _ _, seg, ?_, hv⟩
        have hij : i = j := by omega
        rw [hij]
        exact hget
      · obtain ⟨s2, hs2, htl⟩ := ih _ r hr i hi
        exact ⟨s2, List.mem_cons_of_mem _ hs2, htl⟩

/-- The matched index lists of distinct output rows are pairwise disjoint:
a consumed pool index is never matched again. -/
theorem alignFull_pairwise_disjoint (pool : List Segment) :
    ∀ (master : List Segment) (used : List Nat),
      ((alignFull pool master used).map AlignedRow.matchedIdx).Pairwise
        (fun a b => ∀ i ∈ a, i ∉ b) := by
  intro master
  induction master with
  | nil => intro used; simp [alignFull]
  | cons s rest ih =>
    intro used
    rw [alignFull]
    by_cases hc : (findCandidates s pool 0 used).isEmpty
    · rw [if_pos hc]
      rw [List.map_cons, List.pairwise_cons]
      refine ⟨?_, ih used⟩
      intro b hb i hi
      simp at hi
    · rw [if_neg hc]
      rw [List.map_cons, List.pairwise_cons]
      refine ⟨?_, ih _⟩
      intro b hb i hi hib
      simp only [List.mem_map] at hb
      obtain ⟨r, hr, rfl⟩ := hb
      have hnu := alignFull_idx_not_used pool rest
        (used ++ (sortByIdx (findCandidates s pool 0 used)).map Prod.fst)
        r hr i hib
      exact hnu (List.mem_append_right _ hi)

/-- The matched text of every output row is exactly the newline-join of the
pool texts at the matched indices of the row. -/
theorem alignFull_matchedText (pool : List Segment) :
    ∀ (master : List Segment) (used : List Nat),
      ∀ r ∈ alignFull pool master used,
        r.matchedText = String.intercalate "\n"
          (r.matchedIdx.map fun i => ((pool.get? i).map Segment.text).getD "") := by
  intro master
  induction master with
  | nil => intro used r hr; simp [alignFull] at hr
  | cons s rest ih =>
    intro used r hr
    rw [alignFull] at hr
    by_cases hc : (findCandidates s pool 0 used).isEmpty
    · rw [if_pos hc] at hr
      rcases List.mem_cons.mp hr with hr | hr
      · subst hr; rfl
      · exact ih used r hr
    · rw [if_neg hc] at hr
      rcases List.mem_cons.mp hr with hr | hr
      · subst hr
        simp only
        rw [List.map_map]
        congr 1
        refine List.map_congr_left ?_
        intro c hcm
        rw [mem_sortByIdx, mem_findCandidates] at hcm
        obtain ⟨j, seg, hj, hget, htxt, _, _⟩ := hcm
        simp only [Function.comp_apply]
        rw [show c.1 = j by omega, hget]
        simpa using htxt
      · exact ih _ r hr

theorem runLoop_takeWhile (cancel : Nat → Bool) (pb : Nat → List Event)
    (l : List Nat) :
    runLoop cancel pb l = (l.takeWhile fun i => !cancel i).flatMap pb := by
  induction l with
  | nil => rfl
  | cons i rest ih =>
    rw [runLoop, List.takeWhile_cons]
    by_cases h : cancel i
    · simp [h]
    · simp [h, ih]

theorem runLoop_false (pb : Nat → List Event) (l : List Nat) :
    runLoop (fun _ => false) pb l = l.flatMap pb := by
  rw [runLoop_takeWhile]
  congr 1
  simp

theorem runLoop_take (cancel : Nat → Bool) (pb : Nat → List Event)
    (l : List Nat) (m : Nat)
    (h1 : ∀ s ∈ l.take m, cancel s = false)
    (h2 : ∀ s, l.get? m = some s → cancel s = true) :
    runLoop cancel pb l = (l.take m).flatMap pb := by
  induction l generalizing m with
  | nil => simp [runLoop]
  | cons i rest ih =>
    cases m with
    | zero =>
      have hci : cancel i = true := h2 i rfl
      simp [runLoop, hci]
    | succ m =>
      have hi : cancel i = false := h1 i (by simp)
      rw [runLoop, if_neg (by simp [hi]), List.take_succ_cons,
        List.flatMap_cons]
      congr 1
      apply ih
      · intro s hs
        exact h1 s (by simp [hs])
      · intro s hs
        exact h2 s (by simpa using hs)

theorem reId_length (i : Nat) (l : List RawItem) :
    (reId i l).length = l.length := by
  induction l generalizing i with
  | nil => rfl
  | cons x xs ih => simp [reId, ih]

theorem reId_map_id (i : Nat) (l : List RawItem) :
    (reId i l).map RawItem.id =
      (List.range l.length).map fun j => some (((i + j : Nat)) : Int) := by
  induction l generalizing i with
  | nil => rfl
  | cons x xs ih =>
    rw [reId, List.map_cons, ih (i + 1), List.length_cons,
      List.range_succ_eq_map, List.map_cons, List.map_map]
    refine congrArg₂ List.cons (by simp) ?_
    refine List.map_congr_left fun j hj => ?_
    simp only [Function.comp_apply, Option.some.injEq]
    push_cast
    ring

/-- Every overwritten identifier in a re-indexed batch is
`start_index + position`. -/
theorem reId_get_id (i : Nat) (l : List RawItem) (j : Nat)
    (h : j < (reId i l).length) :
    ((reId i l).get ⟨j, h⟩).id = some (((i + j : Nat)) : Int) := by
  induction l generalizing i j with
  | nil => simp [reId] at h
  | cons x xs ih =>
    cases j with
    | zero => simp [reId]
    | succ j =>
      have h2 : j < (reId (i + 1) xs).length := by
        simpa [reId] using h
      have htl := ih (i + 1) j h2
      simp only [reId, List.get_cons_succ] at h ⊢
      rw [htl]
      congr 1
      omega

theorem emittedBatches_append (a b : List Event) :
    emittedBatches (a ++ b) = emittedBatches a ++ emittedBatches b := by
  induction a with
  | nil => rfl
  | cons e rest ih => cases e <;> simp [emittedBatches, ih]

theorem reviewCallArgs_append (a b : List Event) :
    reviewCallArgs (a ++ b) = reviewCallArgs a ++ reviewCallArgs b := by
  induction a with
  | nil => rfl
  | cons e rest ih => cases e <;> simp [reviewCallArgs, ih]

theorem emittedBatches_flatMap (pb : Nat → List Event) (l : List Nat) :
    emittedBatches (l.flatMap pb) =
      l.flatMap fun i => emittedBatches (pb i) := by
  induction l with
  | nil => rfl
  | cons i rest ih =>
    rw [List.flatMap_cons, emittedBatches_append, ih, List.flatMap_cons]

theorem reviewCallArgs_flatMap (pb : Nat → List Event) (l : List Nat) :
    reviewCallArgs (l.flatMap pb) =
      l.flatMap fun i => reviewCallArgs (pb i) := by
  induction l with
  | nil => rfl
  | cons i rest ih =>
    rw [List.flatMap_cons, reviewCallArgs_append, ih, List.flatMap_cons]

theorem emittedBatches_processBatch (src tgt : List String) (total bs : Nat)
    (review : Nat → RawResponse) (i : Nat) :
    emittedBatches (processBatch src tgt total bs review i) =
      respLists i (review i) := by
  cases h : review i <;>
    simp [processBatch, emittedBatches, respEmissions, respLists, h]

theorem reviewCallArgs_processBatch (src tgt : List String) (total bs : Nat)
    (review : Nat → RawResponse) (i : Nat) :
    reviewCallArgs (processBatch src tgt total bs review i) =
      [((src.drop i).take bs, (tgt.drop i).take bs)] := by
  cases h : review i <;>
    simp [processBatch, reviewCallArgs, respEmissions, h]

theorem mem_batchStarts (total bs : Nat) (hbs : 0 < bs) (s : Nat) :
    s ∈ batchStarts total bs ↔ ∃ k, s = k * bs ∧ s < total := by
  unfold batchStarts
  simp only [List.mem_map, List.mem_range]
  constructor
  · rintro ⟨k, hk, rfl⟩
    refine ⟨k, rfl, ?_⟩
    have h2 : (k + 1) * bs ≤ total + bs - 1 :=
      (Nat.le_div_iff_mul_le hbs).mp hk
    have h3 : (k + 1) * bs = k * bs + bs := by ring
    omega
  · rintro ⟨k, rfl, hlt⟩
    refine ⟨k, ?_, rfl⟩
    have h3 : (k + 1) * bs = k * bs + bs := by ring
    have h2 : (k + 1) * bs ≤ total + bs - 1 := by omega
    exact (Nat.le_div_iff_mul_le hbs).mpr h2

/-- Consecutive (more generally, any two) batch starts are at least one full
batch size apart. -/
theorem batchStarts_pairwise_gap (total bs : Nat) :
    (batchStarts total bs).Pairwise fun a b => a + bs ≤ b := by
  unfold batchStarts
  rw [List.pairwise_map]
  refine List.Pairwise.imp ?_ (List.pairwise_lt_range _)
  intro a b hab
  have h1 : (a + 1) * bs ≤ b * bs := Nat.mul_le_mul_right _ hab
  have h3 : (a + 1) * bs = a * bs + bs := by ring
  omega

theorem alignFull_length (pool : List Segment) :
    ∀ (master : List Segment) (used : List Nat),
      (alignFull pool master used).length = master.length := by
  intro master
  induction master with
  | nil => intro used; rfl
  | cons s rest ih =>
    intro used
    rw [alignFull]
    by_cases hc : (findCandidates s pool 0 used).isEmpty
    · rw [if_pos hc]
      simp [ih]
    · rw [if_neg hc]
      simp [ih]

theorem alignFull_masterText (pool : List Segment) :
    ∀ (master : List Segment) (used : List Nat),
      (alignFull pool master used).map AlignedRow.masterText =
        master.map Segment.text := by
  intro master
  induction master with
  | nil => intro used; rfl
  | cons s rest ih =>
    intro used
    rw [alignFull]
    by_cases hc : (findCandidates s pool 0 used).isEmpty
    · rw [if_pos hc]
      simp [ih]
    · rw [if_neg hc]
      simp [ih]

/-- Claim C4: `align_subtitles` returns exactly one pair per master segment —
the result length equals the master length, the master texts appear as the
first components in master order, and an empty master yields an empty
result. -/
theorem claim_C4 (master pool : List Segment) :
    (align_subtitles master pool).length = master.length ∧
      (align_subtitles master pool).map Prod.fst = master.map Segment.text ∧
      align_subtitles [] pool = [] := by
  refine ⟨?_, ?_, rfl⟩
  · rw [align_subtitles, List.length_map, alignFull_length]
  · rw [align_subtitles, List.map_map]
    exact alignFull_masterText pool master []

/-- Claim C5: the text of no pool segment contributes to the matched text of more
than one master segment.  The enriched rows (`alignFull`, of which
`align_subtitles` is the stated projection) record which pool indices each
row consumed: the matched index lists of distinct rows are pairwise disjoint
(a consumed index is permanently excluded from later candidacy), and each
matched text of each row is exactly the newline-join of the pool texts at its
matched indices. -/
theorem claim_C5 (master pool : List Segment) :
    align_subtitles master pool =
        (alignFull pool master []).map
          (fun r => (r.masterText, r.matchedText)) ∧
      ((alignFull pool master []).map AlignedRow.matchedIdx).Pairwise
        (fun a b => ∀ i ∈ a, i ∉ b) ∧
      ∀ r ∈ alignFull pool master [],
        r.matchedText = String.intercalate "\n"
          (r.matchedIdx.map fun i =>
            ((pool.get? i).map Segment.text).getD "") :=
  ⟨rfl, alignFull_pairwise_disjoint pool master [],
    alignFull_matchedText pool master []⟩

theorem claim_C5_witness :
    AlignedRow.matchedText
        { masterText := "A", matchedText := "x\ny", matchedIdx := [0, 1] } =
      String.intercalate "\n"
        (([0, 1] : List Nat).map fun i =>
          ((([⟨0, 500, "x"⟩, ⟨600, 1100, "y"⟩] : List Segment).get? i).map
            Segment.text).getD "") :=
  (claim_C5 [⟨0, 1000, "A"⟩, ⟨1000, 2000, "B"⟩]
      [⟨0, 500, "x"⟩, ⟨600, 1100, "y"⟩]).2.2
    { masterText := "A", matchedText := "x\ny", matchedIdx := [0, 1] }
    (by decide)

/-- Claim C6: for a master segment `m` and a not-yet-consumed pool segment
`p` sitting at pool index `i`, `p` is selected as a candidate for `m` iff
`overlap(m,p) ≥ MIN_OVERLAP_MS` or `overlap(m,p) / duration(p) > 1/2`, where
`overlap` is clamped at 0 and `duration` floored at 1, exactly as the spec
states the rule. -/
theorem claim_C6 (m p : Segment) (pool : List Segment) (used : List Nat)
    (i : Nat) (hi : pool.get? i = some p) (hused : i ∉ used) :
    (∃ txt, (i, txt) ∈ findCandidates m pool 0 used) ↔
      (MIN_OVERLAP_MS ≤ specOverlap m p ∨
        (1 : ℚ) / 2 < (specOverlap m p : ℚ) / (specDuration p : ℚ)) := by
  rw [← isValidMatch_iff_specRule]
  constructor
  · rintro ⟨txt, hmem⟩
    rw [mem_findCandidates] at hmem
    obtain ⟨j, seg, hj, hget, htxt, hcu, hv⟩ := hmem
    simp only at hj
    have hij : j = i := by omega
    subst hij
    rw [hi] at hget
    obtain rfl : p = seg := by injection hget
    exact hv
  · intro hv
    refine ⟨p.text, ?_⟩
    rw [mem_findCandidates]
    exact ⟨i, p, by omega, by simpa using hi, rfl, hused, hv⟩

theorem claim_C6_witness :
    (∃ txt, (0, txt) ∈
        findCandidates ⟨0, 1000, "A"⟩ [⟨0, 500, "x"⟩] 0 []) ↔
      (MIN_OVERLAP_MS ≤ specOverlap ⟨0, 1000, "A"⟩ ⟨0, 500, "x"⟩ ∨
        (1 : ℚ) / 2 < (specOverlap ⟨0, 1000, "A"⟩ ⟨0, 500, "x"⟩ : ℚ) /
          (specDuration ⟨0, 500, "x"⟩ : ℚ)) :=
  claim_C6 ⟨0, 1000, "A"⟩ ⟨0, 500, "x"⟩ [⟨0, 500, "x"⟩] [] 0 rfl
    (by simp)

/-- Claim C7 counterexample: master `{0,1000}` against pool segment
`{900,1100}` has overlap exactly 100 and `duration(p) = 200 ≤ 200`, yet the
pair does NOT match: the ratio is exactly 1/2, not greater, so rule 2 fails
(and rule 1 fails since 100 < 200).  The claim asserts a match whenever
`duration(p) ≤ 200`; it fails at `duration(p) = 200`. -/
theorem claim_C7_counterexample :
    overlapDuration ⟨0, 1000, "m"⟩ ⟨900, 1100, "p"⟩ = 100 ∧
      specOverlap ⟨0, 1000, "m"⟩ ⟨900, 1100, "p"⟩ = 100 ∧
      specDuration ⟨900, 1100, "p"⟩ = 200 ∧
      isValidMatch ⟨0, 1000, "m"⟩ ⟨900, 1100, "p"⟩ = false ∧
      ¬ (1 : ℚ) / 2 < (specOverlap ⟨0, 1000, "m"⟩ ⟨900, 1100, "p"⟩ : ℚ) /
          (specDuration ⟨900, 1100, "p"⟩ : ℚ) ∧
      findCandidates ⟨0, 1000, "m"⟩ [⟨900, 1100, "p"⟩] 0 [] = [] := by
  refine ⟨by decide, by decide, by decide, by decide, ?_, by decide⟩
  intro h
  have hv : isValidMatch ⟨0, 1000, "m"⟩ ⟨900, 1100, "p"⟩ = true :=
    (isValidMatch_iff_specRule _ _).mpr (Or.inr h)
  exact absurd hv (by decide)

/-- Claim C7 amended: for a master segment and a pool segment `p` whose
overlap is exactly 100 ms, the pair does not match on rule 1
(100 < MIN_OVERLAP_MS), and it matches on rule 2 iff `duration(p) < 200`
(strictly: at duration exactly 200 the ratio is exactly 1/2, which is not
greater than 1/2). -/
theorem claim_C7_amended (m p : Segment)
    (h : overlapDuration m p = 100) :
    ¬ MIN_OVERLAP_MS ≤ specOverlap m p ∧
      (isValidMatch m p = true ↔ specDuration p < 200) := by
  have hso : specOverlap m p = 100 := by
    rw [specOverlap_eq_clamp, h]
    decide
  constructor
  · rw [hso]
    decide
  · rw [isValidMatch, h, tDurationFloor_eq_specDuration]
    norm_num [MIN_OVERLAP_MS]

theorem claim_C7_witness :
    ¬ MIN_OVERLAP_MS ≤ specOverlap ⟨0, 1000, "m"⟩ ⟨900, 1500, "p"⟩ ∧
      (isValidMatch ⟨0, 1000, "m"⟩ ⟨900, 1500, "p"⟩ = true ↔
        specDuration ⟨900, 1500, "p"⟩ < 200) :=
  claim_C7_amended ⟨0, 1000, "m"⟩ ⟨900, 1500, "p"⟩ (by decide)

theorem isValidMatch_degenerate (s p : Segment) (hdeg : p.end_ ≤ p.start) :
    overlapDuration s p ≤ 0 ∧ isValidMatch s p = false := by
  have h1 : min s.end_ p.end_ ≤ p.end_ := min_le_right _ _
  have h2 : p.start ≤ max s.start p.start := le_max_right _ _
  have hov : overlapDuration s p ≤ 0 := by
    unfold overlapDuration
    omega
  refine ⟨hov, ?_⟩
  have hd := tDurationFloor_pos p
  have hA : decide (MIN_OVERLAP_MS ≤ overlapDuration s p) = false := by
    rw [decide_eq_false_iff_not]
    unfold MIN_OVERLAP_MS
    omega
  have hB : decide (tDurationFloor p < 2 * overlapDuration s p) = false := by
    rw [decide_eq_false_iff_not]
    omega
  rw [isValidMatch, hA, hB]
  rfl

/-- Claim C10: a pool segment with zero or negative duration is never matched
to any master segment — its raw overlap with every master window is at most
0, it never passes `is_valid_match`, and its index never appears among the
matched indices of any output row (so its text never contributes to any
matched text, by `alignFull_matchedText`). -/
theorem claim_C10 (master pool : List Segment) (i : Nat) (p : Segment)
    (hi : pool.get? i = some p) (hdeg : p.end_ ≤ p.start) :
    (∀ s, overlapDuration s p ≤ 0 ∧ isValidMatch s p = false) ∧
      ∀ r ∈ alignFull pool master [], i ∉ r.matchedIdx := by
  refine ⟨fun s => isValidMatch_degenerate s p hdeg, ?_⟩
  intro r hr hmem
  obtain ⟨s, hs, seg, hget, hv⟩ :=
    alignFull_idx_valid pool master [] r hr i hmem
  rw [hi] at hget
  obtain rfl : p = seg := by injection hget
  rw [(isValidMatch_degenerate s p hdeg).2] at hv
  exact Bool.false_ne_true hv

theorem claim_C10_witness :
    (∀ s, overlapDuration s ⟨500, 500, "z"⟩ ≤ 0 ∧
        isValidMatch s ⟨500, 500, "z"⟩ = false) ∧
      ∀ r ∈ alignFull [⟨500, 500, "z"⟩] [⟨0, 1000, "A"⟩] [],
        0 ∉ r.matchedIdx :=
  claim_C10 [⟨0, 1000, "A"⟩] [⟨500, 500, "z"⟩] 0 ⟨500, 500, "z"⟩ rfl
    (by decide)

theorem mem_emittedBatches_of_mem (tr : List Event) (items : List RawItem)
    (h : Event.batchResult items ∈ tr) : items ∈ emittedBatches tr := by
  induction tr with
  | nil => simp at h
  | cons e rest ih =>
    rcases List.mem_cons.mp h with heq | hm
    · rw [← heq]
      simp [emittedBatches]
    · cases e <;> simp [emittedBatches, ih hm]

theorem reviewCallArgs_flatMap_processBatch (src tgt : List String)
    (total bs : Nat) (review : Nat → RawResponse) (l : List Nat) :
    reviewCallArgs (l.flatMap (processBatch src tgt total bs review)) =
      l.map fun i => ((src.drop i).take bs, (tgt.drop i).take bs) := by
  induction l with
  | nil => rfl
  | cons i rest ih =>
    rw [List.flatMap_cons, reviewCallArgs_append,
      reviewCallArgs_processBatch, ih]
    rfl

theorem emittedBatches_run (source_lines target_lines : List String)
    (batch_size : Nat) (review : Nat → RawResponse) (cancel : Nat → Bool) :
    emittedBatches
        (LQAWorker.run source_lines target_lines batch_size review cancel) =
      ((batchStarts source_lines.length batch_size).takeWhile
          fun i => !cancel i).flatMap fun i => respLists i (review i) := by
  rw [LQAWorker.run, runLoop_takeWhile, emittedBatches_flatMap]
  congr 1
  funext i
  exact emittedBatches_processBatch source_lines target_lines _ _ review i

theorem emittedBatches_run_false (source_lines target_lines : List String)
    (batch_size : Nat) (review : Nat → RawResponse) :
    emittedBatches (LQAWorker.run source_lines target_lines batch_size review
        (fun _ => false)) =
      (batchStarts source_lines.length batch_size).flatMap fun i =>
        respLists i (review i) := by
  rw [emittedBatches_run]
  congr 1
  simp

theorem mem_reId_id (i : Nat) (l : List RawItem) (item : RawItem)
    (h : item ∈ reId i l) :
    ∃ j, j < l.length ∧ item.id = some (((i + j : Nat)) : Int) := by
  have hmap : item.id ∈ (reId i l).map RawItem.id := List.mem_map_of_mem _ h
  rw [reId_map_id, List.mem_map] at hmap
  obtain ⟨j, hj, hid⟩ := hmap
  exact ⟨j, List.mem_range.mp hj, hid.symm⟩

/-- Claim C1 counterexample: `LQAWorker.run` on inputs of different lengths
(2 source lines, 1 target line) does not fail and does not avoid the review
function: it invokes it once, refuting "the caller-supplied review function
is invoked zero times" and the existence of any InputMismatch rejection. -/
theorem claim_C1_counterexample :
    (["a", "b"] : List String).length ≠ (["a"] : List String).length ∧
      (reviewCallArgs (LQAWorker.run ["a", "b"] ["a"] 10
          (fun _ => RawResponse.jsonOther) (fun _ => false))).length = 1 := by
  exact ⟨by decide, rfl⟩

/-- Claim C1 amended: `LQAWorker.run` performs no length validation at all.
Even when the input lengths differ it batches over the source-line count and
invokes the review function once per batch (absent cancellation), with the
target slice silently truncated to the lines available; no InputMismatch
failure path exists. -/
theorem claim_C1_amended (source_lines target_lines : List String)
    (batch_size : Nat) (review : Nat → RawResponse)
    (h : source_lines.length ≠ target_lines.length) :
    reviewCallArgs (LQAWorker.run source_lines target_lines batch_size review
        (fun _ => false)) =
      (batchStarts source_lines.length batch_size).map fun i =>
        ((source_lines.drop i).take batch_size,
          (target_lines.drop i).take batch_size) := by
  rw [LQAWorker.run, runLoop_false, reviewCallArgs_flatMap_processBatch]

theorem claim_C1_witness :
    (["a", "b"] : List String).length ≠ (["a"] : List String).length ∧
      reviewCallArgs (LQAWorker.run ["a", "b"] ["a"] 10
          (fun _ => RawResponse.jsonOther) (fun _ => false)) =
        (batchStarts (["a", "b"] : List String).length 10).map fun i =>
          (((["a", "b"] : List String).drop i).take 10,
            ((["a"] : List String).drop i).take 10) :=
  ⟨by decide, claim_C1_amended ["a", "b"] ["a"] 10
    (fun _ => RawResponse.jsonOther) (by decide)⟩

/-- Claim C3: every emitted batch of results comes from some batch start `s`,
and every item in it carries row identifier `s + position-within-batch`,
regardless of what identifier (different or missing) the raw service
response supplied. -/
theorem claim_C3 (source_lines target_lines : List String)
    (batch_size : Nat) (review : Nat → RawResponse) (cancel : Nat → Bool)
    (items : List RawItem)
    (hmem : Event.batchResult items ∈
      LQAWorker.run source_lines target_lines batch_size review cancel) :
    ∃ s ∈ batchStarts source_lines.length batch_size,
      ∀ (j : Nat) (hj : j < items.length),
        (items.get ⟨j, hj⟩).id = some (((s + j : Nat)) : Int) := by
  have h2 : items ∈ emittedBatches
      (LQAWorker.run source_lines target_lines batch_size review cancel) :=
    mem_emittedBatches_of_mem _ _ hmem
  rw [emittedBatches_run, List.mem_flatMap] at h2
  obtain ⟨s, hs, hitems⟩ := h2
  refine ⟨s, (List.takeWhile_sublist _).subset hs, ?_⟩
  cases hresp : review s with
  | apiError =>
    rw [hresp] at hitems
    simp [respLists] at hitems
  | parseError =>
    rw [hresp] at hitems
    simp [respLists] at hitems
  | jsonList l =>
    rw [hresp] at hitems
    simp only [respLists, List.mem_singleton] at hitems
    subst hitems
    intro j hj
    exact reId_get_id s l j hj
  | jsonDictReviews l =>
    rw [hresp] at hitems
    simp only [respLists, List.mem_singleton] at hitems
    subst hitems
    intro j hj
    exact reId_get_id s l j hj
  | jsonOther =>
    rw [hresp] at hitems
    simp only [respLists, List.mem_singleton] at hitems
    subst hitems
    intro j hj
    exact reId_get_id s [] j hj

theorem claim_C3_witness :
    ∃ s ∈ batchStarts (["a"] : List String).length 10,
      ∀ (j : Nat) (hj : j < (reId 0 [sampleItem]).length),
        ((reId 0 [sampleItem]).get ⟨j, hj⟩).id =
          some (((s + j : Nat)) : Int) :=
  claim_C3 ["a"] ["b"] 10 (fun _ => RawResponse.jsonList [sampleItem])
    (fun _ => false) (reId 0 [sampleItem]) (by decide)

/-- Claim C9: cancellation is cooperative and checked only at batch
boundaries.  If the interruption flag reads false at the boundary checks of
the first `m` batch starts and true at the (m+1)-st, then the run is exactly
the complete processing — including result emission — of the first `m`
batches, and the review function is invoked exactly once per dispatched
batch: the batch dispatched before the flag was set runs to completion, and
no later batch ever starts. -/
theorem claim_C9 (source_lines target_lines : List String)
    (batch_size : Nat) (review : Nat → RawResponse) (cancel : Nat → Bool)
    (m : Nat)
    (h1 : ∀ s ∈ (batchStarts source_lines.length batch_size).take m,
      cancel s = false)
    (h2 : ∀ s,
      (batchStarts source_lines.length batch_size).get? m = some s →
      cancel s = true) :
    LQAWorker.run source_lines target_lines batch_size review cancel =
      ((batchStarts source_lines.length batch_size).take m).flatMap
        (processBatch source_lines target_lines source_lines.length
          batch_size review) ∧
      (reviewCallArgs (LQAWorker.run source_lines target_lines batch_size
          review cancel)).length =
        ((batchStarts source_lines.length batch_size).take m).length := by
  have heq :
      LQAWorker.run source_lines target_lines batch_size review cancel =
        ((batchStarts source_lines.length batch_size).take m).flatMap
          (processBatch source_lines target_lines source_lines.length
            batch_size review) := by
    rw [LQAWorker.run]
    exact runLoop_take cancel _ _ m h1 h2
  refine ⟨heq, ?_⟩
  rw [heq, reviewCallArgs_flatMap_processBatch, List.length_map]

theorem claim_C9_witness :
    LQAWorker.run ["a", "b", "c"] ["d", "e", "f"] 1
        (fun _ => RawResponse.jsonList [sampleItem])
        (fun i => decide (2 ≤ i)) =
      ((batchStarts (["a", "b", "c"] : List String).length 1).take 2).flatMap
        (processBatch ["a", "b", "c"] ["d", "e", "f"]
          (["a", "b", "c"] : List String).length 1
          (fun _ => RawResponse.jsonList [sampleItem])) ∧
      (reviewCallArgs (LQAWorker.run ["a", "b", "c"] ["d", "e", "f"] 1
          (fun _ => RawResponse.jsonList [sampleItem])
          (fun i => decide (2 ≤ i)))).length =
        ((batchStarts (["a", "b", "c"] : List String).length 1).take
          2).length :=
  claim_C9 ["a", "b", "c"] ["d", "e", "f"] 1
    (fun _ => RawResponse.jsonList [sampleItem]) (fun i => decide (2 ≤ i)) 2
    (by decide) (by decide)

theorem map_id_flatten_flatMap (review : Nat → RawResponse) (l : List Nat) :
    ((l.flatMap fun s => respLists s (review s)).flatten).map RawItem.id =
      l.flatMap fun s =>
        ((respLists s (review s)).flatten).map RawItem.id := by
  induction l with
  | nil => rfl
  | cons s rest ih =>
    rw [List.flatMap_cons, List.flatten_append, List.map_append, ih,
      List.flatMap_cons]

theorem mem_respLists_flatten_id (s : Nat) (r : RawResponse)
    (v : Option Int)
    (hv : v ∈ ((respLists s r).flatten).map RawItem.id) :
    ∃ j, j < respItemCount r ∧ v = some (((s + j : Nat)) : Int) := by
  cases r with
  | apiError => simp [respLists] at hv
  | parseError => simp [respLists] at hv
  | jsonOther => simp [respLists, reId] at hv
  | jsonList l =>
    have hv2 : v ∈ (reId s l).map RawItem.id := by
      simpa [respLists] using hv
    rw [reId_map_id, List.mem_map] at hv2
    obtain ⟨j, hj, hid⟩ := hv2
    exact ⟨j, List.mem_range.mp hj, hid.symm⟩
  | jsonDictReviews l =>
    have hv2 : v ∈ (reId s l).map RawItem.id := by
      simpa [respLists] using hv
    rw [reId_map_id, List.mem_map] at hv2
    obtain ⟨j, hj, hid⟩ := hv2
    exact ⟨j, List.mem_range.mp hj, hid.symm⟩

theorem nodup_respLists_flatten_id (s : Nat) (r : RawResponse) :
    (((respLists s r).flatten).map RawItem.id).Nodup := by
  have hinj : Function.Injective
      fun j : Nat => (some (((s + j : Nat)) : Int) : Option Int) := by
    intro a b hab
    simp only [Option.some.injEq] at hab
    have hnat : (s + a : Nat) = (s + b : Nat) := by exact_mod_cast hab
    omega
  cases r with
  | apiError => simp [respLists]
  | parseError => simp [respLists]
  | jsonOther => simp [respLists, reId]
  | jsonList l =>
    have heq : ((respLists s (RawResponse.jsonList l)).flatten).map
        RawItem.id =
        (List.range l.length).map
          fun j => (some (((s + j : Nat)) : Int) : Option Int) := by
      simp only [respLists, List.flatten_cons, List.flatten_nil,
        List.append_nil]
      exact reId_map_id s l
    rw [heq]
    exact List.Nodup.map hinj (List.nodup_range _)
  | jsonDictReviews l =>
    have heq : ((respLists s (RawResponse.jsonDictReviews l)).flatten).map
        RawItem.id =
        (List.range l.length).map
          fun j => (some (((s + j : Nat)) : Int) : Option Int) := by
      simp only [respLists, List.flatten_cons, List.flatten_nil,
        List.append_nil]
      exact reId_map_id s l
    rw [heq]
    exact List.Nodup.map hinj (List.nodup_range _)

/-- Claim C2 counterexample: 11 source rows, batch size 10.  The first
response of the first batch carries 11 items — one more than the batch holds —
and that of the second carries 1.  Nothing is discarded: row identifier 10
is emitted by both batches, so emitted row identifiers are not globally
unique. -/
theorem claim_C2_counterexample :
    10 < respItemCount
        (RawResponse.jsonList (List.replicate 11 sampleItem)) ∧
      (emittedIds (LQAWorker.run (List.replicate 11 "s")
          (List.replicate 11 "t") 10
          (fun i => if i = 0 then
              RawResponse.jsonList (List.replicate 11 sampleItem)
            else RawResponse.jsonList [sampleItem])
          (fun _ => false))).count (some 10) = 2 := by
  exact ⟨by decide, by decide⟩

/-- Claim C2 amended: the pipeline does NOT discard result items positioned
beyond the length of the batch — every item of a list response is emitted,
re-identified as `start_index + position` — and emitted row identifiers are
globally unique across the whole run provided the response of every batch
carries at most as many items as the batch holds. -/
theorem claim_C2_amended (source_lines target_lines : List String)
    (batch_size : Nat) (review : Nat → RawResponse) (cancel : Nat → Bool)
    (hbound : ∀ s ∈ batchStarts source_lines.length batch_size,
      respItemCount (review s) ≤
        min batch_size (source_lines.length - s)) :
    (∀ s l, review s = RawResponse.jsonList l →
        ∃ b ∈ respLists s (review s), b.length = l.length ∧
          ∀ (j : Nat) (hj : j < b.length),
            (b.get ⟨j, hj⟩).id = some (((s + j : Nat)) : Int)) ∧
      (emittedIds (LQAWorker.run source_lines target_lines batch_size review
          cancel)).Nodup := by
  constructor
  · intro s l hrl
    rw [hrl]
    exact ⟨reId s l, by simp [respLists], reId_length s l,
      fun j hj => reId_get_id s l j hj⟩
  · rw [emittedIds, emittedItems, emittedBatches_run,
      map_id_flatten_flatMap, List.nodup_flatMap]
    constructor
    · intro s hs
      exact nodup_respLists_flatten_id s (review s)
    · have hgap : ((batchStarts source_lines.length batch_size).takeWhile
          fun i => !cancel i).Pairwise
            (fun a b => a + batch_size ≤ b) :=
        (batchStarts_pairwise_gap _ _).sublist (List.takeWhile_sublist _)
      refine List.Pairwise.imp_of_mem ?_ hgap
      intro a b ha hb hab
      have ha2 : a ∈ batchStarts source_lines.length batch_size :=
        (List.takeWhile_sublist _).subset ha
      intro v hva hvb
      obtain ⟨j, hj, rfl⟩ := mem_respLists_flatten_id a (review a) v hva
      obtain ⟨j2, hj2, heq⟩ := mem_respLists_flatten_id b (review b) _ hvb
      have hcnt : respItemCount (review a) ≤
          min batch_size (source_lines.length - a) := hbound a ha2
      have hnat : (a + j : Nat) = (b + j2 : Nat) := by
        simp only [Option.some.injEq] at heq
        exact_mod_cast heq
      omega

theorem claim_C2_witness :
    (∀ s l,
        (fun i : Nat => RawResponse.jsonList
          (List.replicate (min 10 (25 - i)) sampleItem)) s =
          RawResponse.jsonList l →
        ∃ b ∈ respLists s
            ((fun i : Nat => RawResponse.jsonList
              (List.replicate (min 10 (25 - i)) sampleItem)) s),
          b.length = l.length ∧
          ∀ (j : Nat) (hj : j < b.length),
            (b.get ⟨j, hj⟩).id = some (((s + j : Nat)) : Int)) ∧
      (emittedIds (LQAWorker.run (List.replicate 25 "s")
          (List.replicate 25 "t") 10
          (fun i : Nat => RawResponse.jsonList
            (List.replicate (min 10 (25 - i)) sampleItem))
          (fun _ => false))).Nodup :=
  claim_C2_amended (List.replicate 25 "s") (List.replicate 25 "t") 10
    (fun i : Nat => RawResponse.jsonList
      (List.replicate (min 10 (25 - i)) sampleItem))
    (fun _ => false) (by decide)

/-- Claim C8: when the review call fails for one batch — a service error or
a response that cannot be parsed — only that batch is skipped: no result
carrying a row identifier in the range of that batch is ever emitted, while every
other (succeeding) batch still emits its results with the correct
identifiers, and the loop still processes every batch to the end of the
input (the run completes normally: in the source, `run` returning is what
fires the `finished` signal). -/
theorem claim_C8 (source_lines target_lines : List String)
    (batch_size : Nat) (review : Nat → RawResponse) (s0 : Nat)
    (hs0 : s0 ∈ batchStarts source_lines.length batch_size)
    (hfail : review s0 = RawResponse.apiError ∨
      review s0 = RawResponse.parseError)
    (hok : ∀ s ∈ batchStarts source_lines.length batch_size, s ≠ s0 →
      ∃ l, review s = RawResponse.jsonList l ∧
        l.length = min batch_size (source_lines.length - s)) :
    LQAWorker.run source_lines target_lines batch_size review
        (fun _ => false) =
      (batchStarts source_lines.length batch_size).flatMap
        (processBatch source_lines target_lines source_lines.length
          batch_size review) ∧
      (∀ s ∈ batchStarts source_lines.length batch_size, s ≠ s0 →
        ∃ items, Event.batchResult items ∈
            LQAWorker.run source_lines target_lines batch_size review
              (fun _ => false) ∧
          items.length = min batch_size (source_lines.length - s) ∧
          ∀ (j : Nat) (hj : j < items.length),
            (items.get ⟨j, hj⟩).id = some (((s + j : Nat)) : Int)) ∧
      ∀ item ∈ emittedItems (LQAWorker.run source_lines target_lines
          batch_size review (fun _ => false)),
        ∀ v : Int, item.id = some v →
          ¬ ((s0 : Int) ≤ v ∧ v < (s0 : Int) + (batch_size : Int)) := by
  have ha : LQAWorker.run source_lines target_lines batch_size review
      (fun _ => false) =
      (batchStarts source_lines.length batch_size).flatMap
        (processBatch source_lines target_lines source_lines.length
          batch_size review) := by
    rw [LQAWorker.run]
    exact runLoop_false _ _
  refine ⟨ha, ?_, ?_⟩
  · intro s hs hne
    obtain ⟨l, hrl, hlen⟩ := hok s hs hne
    refine ⟨reId s l, ?_, ?_, fun j hj => reId_get_id s l j hj⟩
    · rw [ha]
      refine List.mem_flatMap.mpr ⟨s, hs, ?_⟩
      simp [processBatch, respEmissions, hrl]
    · rw [reId_length]
      exact hlen
  · intro item hitem v hid hrange
    rw [emittedItems, emittedBatches_run_false] at hitem
    rw [List.mem_flatten] at hitem
    obtain ⟨batch, hbatch, hitem2⟩ := hitem
    rw [List.mem_flatMap] at hbatch
    obtain ⟨s, hs, hbatch2⟩ := hbatch
    have hvmem : item.id ∈ ((respLists s (review s)).flatten).map
        RawItem.id :=
      List.mem_map_of_mem _ (List.mem_flatten.mpr ⟨batch, hbatch2, hitem2⟩)
    obtain ⟨j, hj, hidj⟩ := mem_respLists_flatten_id s (review s) _ hvmem
    by_cases hss0 : s = s0
    · subst hss0
      rcases hfail with hf | hf <;> rw [hf] at hj <;>
        simp [respItemCount] at hj
    · obtain ⟨l, hrl, hlen⟩ := hok s hs hss0
      rw [hrl] at hj
      have hjlen : j < l.length := hj
      have hjbs : j < batch_size := by omega
      have hgap : ((batchStarts source_lines.length batch_size)).Pairwise
          (fun a b => a + batch_size ≤ b ∨ b + batch_size ≤ a) :=
        (batchStarts_pairwise_gap _ _).imp Or.inl
      have hsym : Symmetric
          (fun a b : Nat => a + batch_size ≤ b ∨ b + batch_size ≤ a) := by
        intro a b hab
        tauto
      have hfar := List.Pairwise.forall hsym hgap hs hs0 hss0
      have hv : v = (((s + j : Nat)) : Int) := by
        rw [hid] at hidj
        exact (Option.some.injEq _ _ ▸ hidj :)
      omega

theorem claim_C8_witness :
    LQAWorker.run (List.replicate 25 "s") (List.replicate 25 "t") 10
        (fun i : Nat => if i = 10 then RawResponse.apiError
          else RawResponse.jsonList
            (List.replicate (min 10 (25 - i)) sampleItem))
        (fun _ => false) =
      (batchStarts (List.replicate 25 "s" : List String).length 10).flatMap
        (processBatch (List.replicate 25 "s") (List.replicate 25 "t")
          (List.replicate 25 "s" : List String).length 10
          (fun i : Nat => if i = 10 then RawResponse.apiError
            else RawResponse.jsonList
              (List.replicate (min 10 (25 - i)) sampleItem))) ∧
      (∀ s ∈ batchStarts (List.replicate 25 "s" : List String).length 10,
        s ≠ 10 →
        ∃ items, Event.batchResult items ∈
            LQAWorker.run (List.replicate 25 "s") (List.replicate 25 "t") 10
              (fun i : Nat => if i = 10 then RawResponse.apiError
                else RawResponse.jsonList
                  (List.replicate (min 10 (25 - i)) sampleItem))
              (fun _ => false) ∧
          items.length =
            min 10 ((List.replicate 25 "s" : List String).length - s) ∧
          ∀ (j : Nat) (hj : j < items.length),
            (items.get ⟨j, hj⟩).id = some (((s + j : Nat)) : Int)) ∧
      ∀ item ∈ emittedItems
          (LQAWorker.run (List.replicate 25 "s") (List.replicate 25 "t") 10
            (fun i : Nat => if i = 10 then RawResponse.apiError
              else RawResponse.jsonList
                (List.replicate (min 10 (25 - i)) sampleItem))
            (fun _ => false)),
        ∀ v : Int, item.id = some v →
          ¬ (((10 : Nat) : Int) ≤ v ∧
            v < ((10 : Nat) : Int) + ((10 : Nat) : Int)) :=
  claim_C8 (List.replicate 25 "s") (List.replicate 25 "t") 10
    (fun i : Nat => if i = 10 then RawResponse.apiError
      else RawResponse.jsonList
        (List.replicate (min 10 (25 - i)) sampleItem))
    10 (by decide) (Or.inl (by decide))
    (by
      intro s hs hne
      refine ⟨List.replicate (min 10 (25 - s)) sampleItem, ?_, by simp⟩
      simp [hne])

end Kaorou
